import Mathlib

/-!
# Verification of the DKM k-means library (`src/dkm/dkm.hpp`)

This file gives a shallow embedding of the helper functions of the DKM
k-means implementation and proves the documented properties of each one.

Conventions of the embedding:
* the scalar template parameter `T` is embedded as `ℚ` (an exact ordered
  field, so the arithmetic identities hold without rounding);
* a fixed-dimension point `std::array<T, N>` is embedded as `List ℚ`; the
  static dimension `N` is passed explicitly where the code needs it
  (zero-initialisation in `calculate_means`);
* `std::vector` indexing is total in C++ only when the index is in bounds;
  an out-of-bounds access is embedded as an `Option` failure (`none`), so
  a function that can only fail through an out-of-bounds access returns
  `some _` exactly when every access it performs is in bounds;
* the 64-bit LCG state is embedded as `Nat` with an explicit modulus.
-/

/-- Embeds `details::distance_squared`: sum over the coordinate pairs of the squared
coordinate-wise difference. -/
def distance_squared (a b : List ℚ) : ℚ :=
  (List.zipWith (fun x y => (x - y) * (x - y)) a b).sum

/-- The inner minimisation loop of `details::closest_distance`:
`closest` starts at `acc` and is replaced whenever a strictly smaller
squared distance is found. -/
def closest_fold (d : List ℚ) (ms : List (List ℚ)) (acc : ℚ) : ℚ :=
  List.foldl
    (fun closest m =>
      if distance_squared d m < closest then distance_squared d m else closest)
    acc ms

/-- Embeds `details::closest_distance`: for each point of `data`, the smallest squared
distance to any of `means`.  The body reads `means[0]` for every data point,
so with non-empty `data` an empty `means` is an out-of-bounds access
(embedded as `none`); with empty `data` the loop body never runs. -/
def closest_distance (means data : List (List ℚ)) : Option (List ℚ) :=
  match data with
  | [] => some []
  | d :: rest =>
    match means with
    | [] => none
    | m0 :: _ =>
      (closest_distance means rest).map
        (fun r => closest_fold d means (distance_squared d m0) :: r)

/-- The scanning loop of `details::closest_mean`: `i` is the index of the next
mean to inspect and `acc` holds the best `(index, smallest_distance)` pair
found so far; a new mean wins only with a strictly smaller distance. -/
def cm_go (point : List ℚ) : List (List ℚ) → Nat → Nat × ℚ → Nat × ℚ
  | [], _, acc => acc
  | m :: rest, i, acc =>
    if distance_squared point m < acc.2 then
      cm_go point rest (i + 1) (i, distance_squared point m)
    else
      cm_go point rest (i + 1) acc

/-- Embeds `details::closest_mean`: index of the mean with smallest squared distance
to `point`; the code reads `means[0]` before the scan, so empty `means` is an
out-of-bounds access (embedded as `none`). -/
def closest_mean (point : List ℚ) (means : List (List ℚ)) : Option Nat :=
  match means with
  | [] => none
  | m0 :: rest => some (cm_go point rest 1 (0, distance_squared point m0)).1

/-- Embeds `details::calculate_clusters`: `closest_mean` applied to every point of
`data`, in order. -/
def calculate_clusters (data means : List (List ℚ)) : Option (List Nat) :=
  match data with
  | [] => some []
  | d :: rest =>
    (closest_mean d means).bind
      (fun c => (calculate_clusters rest means).map (fun r => c :: r))

/-- The inner coordinate loop of `details::calculate_means`:
`mean[j] += data[i][j]` for every `j < min(|data[i]|, |mean|)`, the remaining
entries of `mean` unchanged. -/
def add_into (m p : List ℚ) : List ℚ :=
  List.zipWith (fun x y => x + y) m p ++ m.drop p.length

/-- One accumulation step of `details::calculate_means` on the pair of a
running coordinate sum and a running count: add the point into the sum and
bump the count by one (`count[c] += 1` with `count` of the scalar type). -/
def bump (mc : List ℚ × ℚ) (d : List ℚ) : List ℚ × ℚ :=
  (add_into mc.1 d, mc.2 + 1)

/-- The first loop of `details::calculate_means`: walk the consulted
`(cluster, point)` pairs and accumulate each point into the slot named by its
cluster index.  The C++ `means[clusters[i]]` / `count[clusters[i]]` accesses
carry no bound check, so an out-of-range cluster index is an out-of-bounds
access (embedded as `none`).  The two parallel vectors `means` and `count`
(both of size `k`) are embedded as one list of pairs. -/
def accum : List (Nat × List ℚ) → List (List ℚ × ℚ) → Option (List (List ℚ × ℚ))
  | [], st => some st
  | cd :: rest, st =>
    if cd.1 < st.length then
      accum rest (st.set cd.1 (bump (st.getD cd.1 ([], 0)) cd.2))
    else
      none

/-- The second loop of `details::calculate_means`: for each cluster slot, if
its count is zero take the corresponding previous mean (`means[i] =
old_means[i]`, an out-of-bounds access when `old_means` is too short,
embedded as `none`), otherwise divide every coordinate of the sum by the
count. -/
def finalize (old_means : List (List ℚ)) : Nat → List (List ℚ × ℚ) → Option (List (List ℚ))
  | _, [] => some []
  | i, mc :: rest =>
    if mc.2 = 0 then
      match old_means[i]? with
      | none => none
      | some om => (finalize old_means (i + 1) rest).map (fun r => om :: r)
    else
      (finalize old_means (i + 1) rest).map
        (fun r => mc.1.map (fun x => x / mc.2) :: r)

/-- Embeds `details::calculate_means`: `means` is value-initialised to `k` zero
points of dimension `n` and `count` to `k` zeros; only the first
`min(|clusters|, |data|)` index pairs are consulted (the `zip` truncates to
exactly that overlap); then each slot is finalised against `old_means`. -/
def calculate_means (data : List (List ℚ)) (clusters : List Nat)
    (old_means : List (List ℚ)) (k n : Nat) : Option (List (List ℚ)) :=
  (accum (clusters.zip data) (List.replicate k (List.replicate n 0, 0))).bind
    (finalize old_means 0)

/-- Embeds `details::deltas_below_limit`: scan the deltas and return `false` at the
first one strictly above `min_delta`, `true` if none is. -/
def deltas_below_limit (ds : List ℚ) (min_delta : ℚ) : Bool :=
  match ds with
  | [] => true
  | d :: rest => if min_delta < d then false else deltas_below_limit rest min_delta

/-- The modulus template argument of the `std::linear_congruential_engine`
instantiated by `details::random_plusplus`: the code passes `UINT64_MAX`,
that is `2 ^ 64 - 1`. -/
def lcg_modulus : Nat := 2 ^ 64 - 1

/-- The state transition of the generator instantiated by
`details::random_plusplus`: `state' = (a * state + c) mod m` with
`a = 6364136223846793005`, `c = 1442695040888963407` and `m` the modulus
template argument `UINT64_MAX`. -/
def lcg_next (state : Nat) : Nat :=
  (6364136223846793005 * state + 1442695040888963407) % lcg_modulus

/-- Modelled from the spec: the spec's generator transition, `state' =
(6364136223846793005 * state + 1442695040888963407) mod 2^64` — the modulus
claimed is `2 ^ 64`, not the `UINT64_MAX` the code passes.  Kept separate so
the two transitions can be compared. -/
def lcg_next_claimed (state : Nat) : Nat :=
  (6364136223846793005 * state + 1442695040888963407) % (2 ^ 64)

/-- The seeding of `std::linear_congruential_engine`: with increment not
divisible by the modulus, the initial state is `seed mod m`. -/
def lcg_seed (seed : Nat) : Nat := seed % lcg_modulus

/-- Embeds `dkm::clustering_parameters`: the required cluster count plus three
optional fields, each guarded by its own presence flag. -/
structure clustering_parameters where
  _k : Nat
  _has_max_iter : Bool
  _max_iter : Nat
  _has_min_delta : Bool
  _min_delta : ℚ
  _has_rand_seed : Bool
  _rand_seed : Nat

/-- The `clustering_parameters(uint32_t k)` constructor: the flags start
`false` and the optional values are value-initialised to zero. -/
def clustering_parameters.init (k : Nat) : clustering_parameters :=
  ⟨k, false, 0, false, 0, false, 0⟩

/-- Embeds `clustering_parameters::set_max_iteration`. -/
def clustering_parameters.set_max_iteration (p : clustering_parameters) (v : Nat) :
    clustering_parameters :=
  ⟨p._k, true, v, p._has_min_delta, p._min_delta, p._has_rand_seed, p._rand_seed⟩

/-- Embeds `clustering_parameters::set_min_delta`. -/
def clustering_parameters.set_min_delta (p : clustering_parameters) (v : ℚ) :
    clustering_parameters :=
  ⟨p._k, p._has_max_iter, p._max_iter, true, v, p._has_rand_seed, p._rand_seed⟩

/-- Embeds `clustering_parameters::set_random_seed`. -/
def clustering_parameters.set_random_seed (p : clustering_parameters) (v : Nat) :
    clustering_parameters :=
  ⟨p._k, p._has_max_iter, p._max_iter, p._has_min_delta, p._min_delta, true, v⟩

/-- Embeds `clustering_parameters::has_max_iteration`. -/
def clustering_parameters.has_max_iteration (p : clustering_parameters) : Bool :=
  p._has_max_iter

/-- Embeds `clustering_parameters::has_min_delta`. -/
def clustering_parameters.has_min_delta (p : clustering_parameters) : Bool :=
  p._has_min_delta

/-- Embeds `clustering_parameters::has_random_seed`. -/
def clustering_parameters.has_random_seed (p : clustering_parameters) : Bool :=
  p._has_rand_seed

/-- Embeds `clustering_parameters::get_k`. -/
def clustering_parameters.get_k (p : clustering_parameters) : Nat := p._k

/-- Embeds `clustering_parameters::get_max_iteration`. -/
def clustering_parameters.get_max_iteration (p : clustering_parameters) : Nat :=
  p._max_iter

/-- Embeds `clustering_parameters::get_min_delta`. -/
def clustering_parameters.get_min_delta (p : clustering_parameters) : ℚ :=
  p._min_delta

/-- Embeds `clustering_parameters::get_random_seed`. -/
def clustering_parameters.get_random_seed (p : clustering_parameters) : Nat :=
  p._rand_seed

/-- Modelled from the spec: the orchestrator (spec §4.6, the Lloyd's-loop
entry point) is absent from the source tree — `dkm.hpp` ends inside
`clustering_parameters`, before any `kmeans_lloyd` definition.  The spec's
per-iteration convergence test "a minimum-delta is configured and all
per-mean deltas are ≤ it" compares the Euclidean movement `√d²(old_i, new_i)`
of every mean against `min_delta`; since `√x ≤ δ ↔ (0 ≤ δ ∧ x ≤ δ²)` for
`x ≥ 0`, the test is expressed on squared distances to stay inside `ℚ`. -/
def lloyd_converged (min_delta : ℚ) (old_means new_means : List (List ℚ)) : Bool :=
  decide (0 ≤ min_delta) &&
    deltas_below_limit (List.zipWith distance_squared old_means new_means)
      (min_delta * min_delta)

/-- Modelled from the spec: the ITERATING phase of the orchestrator (spec
§4.6, absent from the source tree).  Each iteration assigns
(`calculate_clusters`), updates (`calculate_means` against the previous
means), then tests, in the spec's precedence: min-delta convergence first,
then "a maximum-iteration count is configured and it has been reached"
(`iter + 1` iterations have completed).  The loop returns the means and
assignments of the iteration during which it stops.  `fuel` bounds how many
further iterations may run, so `fuel = j` returning `some` is the statement
that the loop terminates within `j` more iterations. -/
def lloyd_loop (data : List (List ℚ)) (p : clustering_parameters) (n : Nat) :
    Nat → Nat → List (List ℚ) → Option (List (List ℚ) × List Nat)
  | 0, _, _ => none
  | fuel + 1, iter, means =>
    (calculate_clusters data means).bind
      (fun clusters =>
        (calculate_means data clusters means p._k n).bind
          (fun new_means =>
            if p._has_min_delta && lloyd_converged p._min_delta means new_means then
              some (new_means, clusters)
            else if p._has_max_iter && decide (p._max_iter ≤ iter + 1) then
              some (new_means, clusters)
            else
              lloyd_loop data p n fuel (iter + 1) new_means))

/-- Claim C2 (code evaluated at the failing input): seeded with 3, the
engine the code instantiates advances `3 ↦ (a * 3 + c) mod (2^64 - 1) =
2088359638719790807`, while the spec's transition `mod 2^64` gives
`2088359638719790806`: the code's modulus template argument `UINT64_MAX`
is `2^64 - 1`, not the claimed `2^64`. -/
theorem lcg_modulus_mismatch :
    lcg_next (lcg_seed 3) = 2088359638719790807 ∧
      lcg_next_claimed 3 = 2088359638719790806 ∧
      lcg_next (lcg_seed 3) ≠ lcg_next_claimed 3 :=
  ⟨by decide, by decide, by decide⟩

/-- Claim C7: `deltas_below_limit` returns `true` iff every delta is
`≤ min_delta`; in particular it returns `true` on the empty vector. -/
theorem deltas_below_limit_iff (ds : List ℚ) (m : ℚ) :
    (deltas_below_limit ds m = true ↔ ∀ d ∈ ds, d ≤ m) ∧
      deltas_below_limit [] m = true := by
  refine ⟨?_, rfl⟩
  induction ds with
  | nil => simp [deltas_below_limit]
  | cons d rest ih =>
    by_cases h : m < d
    · simp only [deltas_below_limit, if_pos h]
      simp only [Bool.false_eq_true, false_iff]
      intro hall
      exact absurd (hall d (List.mem_cons_self d rest)) (not_le.mpr h)
    · simp only [deltas_below_limit, if_neg h]
      rw [ih]
      simp [List.forall_mem_cons, le_of_not_lt h]

/-- Witness for claim C7 at a concrete input. -/
theorem deltas_below_limit_iff_witness :
    (deltas_below_limit [1, 2] 2 = true ↔ ∀ d ∈ [(1 : ℚ), 2], d ≤ 2) ∧
      deltas_below_limit [] 2 = true :=
  deltas_below_limit_iff [1, 2] 2

/-- Claim C8: a freshly constructed `clustering_parameters` has all three
presence flags `false`; each setter (also with the value 0) raises exactly
its flag and makes its getter return the stored value, so an explicitly-set
zero is distinguishable from an unset field. -/
theorem clustering_parameters_optional_fields (k v s : Nat) (q : ℚ)
    (p : clustering_parameters) :
    (clustering_parameters.init k).has_max_iteration = false ∧
      (clustering_parameters.init k).has_min_delta = false ∧
      (clustering_parameters.init k).has_random_seed = false ∧
      (p.set_max_iteration v).has_max_iteration = true ∧
      (p.set_max_iteration v).get_max_iteration = v ∧
      (p.set_min_delta q).has_min_delta = true ∧
      (p.set_min_delta q).get_min_delta = q ∧
      (p.set_random_seed s).has_random_seed = true ∧
      (p.set_random_seed s).get_random_seed = s :=
  ⟨rfl, rfl, rfl, rfl, rfl, rfl, rfl, rfl, rfl⟩

/-- Invariant of the `closest_mean` scanning loop: the returned pair's
distance is at most the incoming one and at most every scanned distance, and
the returned pair either is the incoming accumulator or names a scanned mean
that strictly beat the accumulator and every mean scanned before it. -/
theorem cm_go_spec (point : List ℚ) (ms : List (List ℚ)) (i : Nat) (acc : Nat × ℚ) :
    ((cm_go point ms i acc).2 ≤ acc.2 ∧
      ∀ j, j < ms.length →
        (cm_go point ms i acc).2 ≤ distance_squared point (ms.getD j [])) ∧
    (cm_go point ms i acc = acc ∨
      ∃ j, j < ms.length ∧ (cm_go point ms i acc).1 = i + j ∧
        (cm_go point ms i acc).2 = distance_squared point (ms.getD j []) ∧
        (cm_go point ms i acc).2 < acc.2 ∧
        ∀ j', j' < j →
          (cm_go point ms i acc).2 < distance_squared point (ms.getD j' [])) := by
  induction ms generalizing i acc with
  | nil => exact ⟨⟨le_refl _, fun j hj => absurd hj (Nat.not_lt_zero j)⟩, Or.inl rfl⟩
  | cons m rest ih =>
    by_cases h : distance_squared point m < acc.2
    · have hgo : cm_go point (m :: rest) i acc =
          cm_go point rest (i + 1) (i, distance_squared point m) := by
        simp [cm_go, h]
      obtain ⟨⟨hle, hall⟩, hcases⟩ := ih (i + 1) (i, distance_squared point m)
      rw [hgo]
      refine ⟨⟨le_trans hle (le_of_lt h), ?_⟩, ?_⟩
      · intro j hj
        cases j with
        | zero => simpa using hle
        | succ j' =>
          simpa using hall j' (Nat.lt_of_succ_lt_succ (by simpa using hj))
      · rcases hcases with heq | ⟨j, hj, h1, h2, h3, h4⟩
        · refine Or.inr ⟨0, Nat.succ_pos _, ?_, ?_, ?_, ?_⟩
          · rw [heq]; simp
          · rw [heq]; simp
          · rw [heq]; exact h
          · intro j' hj'; exact absurd hj' (Nat.not_lt_zero j')
        · refine Or.inr ⟨j + 1, by simpa using Nat.succ_lt_succ hj, ?_, ?_, ?_, ?_⟩
          · rw [h1]; omega
          · simpa using h2
          · exact lt_trans h3 h
          · intro j' hj'
            cases j' with
            | zero => simpa using h3
            | succ j'' => simpa using h4 j'' (Nat.lt_of_succ_lt_succ hj')
    · have hgo : cm_go point (m :: rest) i acc = cm_go point rest (i + 1) acc := by
        simp [cm_go, h]
      obtain ⟨⟨hle, hall⟩, hcases⟩ := ih (i + 1) acc
      rw [hgo]
      refine ⟨⟨hle, ?_⟩, ?_⟩
      · intro j hj
        cases j with
        | zero => simpa using le_trans hle (not_lt.mp h)
        | succ j' =>
          simpa using hall j' (Nat.lt_of_succ_lt_succ (by simpa using hj))
      · rcases hcases with heq | ⟨j, hj, h1, h2, h3, h4⟩
        · exact Or.inl heq
        · refine Or.inr ⟨j + 1, by simpa using Nat.succ_lt_succ hj, ?_, ?_, ?_, ?_⟩
          · rw [h1]; omega
          · simpa using h2
          · exact h3
          · intro j' hj'
            cases j' with
            | zero => simpa using lt_of_lt_of_le h3 (not_lt.mp h)
            | succ j'' => simpa using h4 j'' (Nat.lt_of_succ_lt_succ hj')

/-- Applying `closest_mean` to a non-empty means collection returns the first index
attaining the minimum squared distance: the returned index is in bounds, its
distance is a minimum, and every earlier index has a strictly larger
distance. -/
theorem closest_mean_first (point : List ℚ) (means : List (List ℚ))
    (h : means ≠ []) :
    ∃ i, closest_mean point means = some i ∧ i < means.length ∧
      (∀ j, j < means.length →
        distance_squared point (means.getD i []) ≤
          distance_squared point (means.getD j [])) ∧
      (∀ j, j < i →
        distance_squared point (means.getD i []) <
          distance_squared point (means.getD j [])) := by
  match means with
  | [] => exact absurd rfl h
  | m0 :: rest =>
    obtain ⟨⟨hle, hall⟩, hcases⟩ :=
      cm_go_spec point rest 1 (0, distance_squared point m0)
    rcases hcases with heq | ⟨j, hj, h1, h2, h3, h4⟩
    · refine ⟨0, ?_, Nat.succ_pos _, ?_, ?_⟩
      · simp [closest_mean, heq]
      · intro t ht
        cases t with
        | zero => simp
        | succ t' =>
          have := hall t' (Nat.lt_of_succ_lt_succ (by simpa using ht))
          rw [heq] at this
          simpa using this
      · intro t ht; exact absurd ht (Nat.not_lt_zero t)
    · refine ⟨1 + j, ?_, by simp only [List.length_cons]; omega, ?_, ?_⟩
      · simp [closest_mean, h1]
      · intro t ht
        have hget : (m0 :: rest).getD (1 + j) [] = rest.getD j [] := by
          rw [Nat.add_comm]; simp
        rw [hget, ← h2]
        cases t with
        | zero => simpa using le_of_lt h3
        | succ t' =>
          simpa using hall t' (Nat.lt_of_succ_lt_succ (by simpa using ht))
      · intro t ht
        have hget : (m0 :: rest).getD (1 + j) [] = rest.getD j [] := by
          rw [Nat.add_comm]; simp
        rw [hget, ← h2]
        cases t with
        | zero => simpa using h3
        | succ t' =>
          have ht' : t' < j := by omega
          simpa using h4 t' ht'

/-- Claim C4: for every point and every non-empty means collection,
`closest_mean` returns the least index whose squared distance to the point
is minimal — the scan is in ascending index order and ties are broken by the
lowest index. -/
theorem closest_mean_least (point : List ℚ) (means : List (List ℚ))
    (h : means ≠ []) :
    ∃ i, closest_mean point means = some i ∧ i < means.length ∧
      (∀ j, j < means.length →
        distance_squared point (means.getD i []) ≤
          distance_squared point (means.getD j [])) ∧
      (∀ j, j < i →
        distance_squared point (means.getD i []) <
          distance_squared point (means.getD j [])) :=
  closest_mean_first point means h

/-- Witness for claim C4: on means `[[2], [0], [0]]` and point `[0]` the
minimum squared distance 0 is first attained at index 1. -/
theorem closest_mean_least_witness :
    ∃ i, closest_mean [(0 : ℚ)] [[(2 : ℚ)], [0], [0]] = some i ∧
      i < ([[(2 : ℚ)], [0], [0]] : List (List ℚ)).length ∧
      (∀ j, j < ([[(2 : ℚ)], [0], [0]] : List (List ℚ)).length →
        distance_squared [(0 : ℚ)] (([[(2 : ℚ)], [0], [0]] : List (List ℚ)).getD i []) ≤
          distance_squared [(0 : ℚ)] (([[(2 : ℚ)], [0], [0]] : List (List ℚ)).getD j [])) ∧
      (∀ j, j < i →
        distance_squared [(0 : ℚ)] (([[(2 : ℚ)], [0], [0]] : List (List ℚ)).getD i []) <
          distance_squared [(0 : ℚ)] (([[(2 : ℚ)], [0], [0]] : List (List ℚ)).getD j [])) :=
  closest_mean_least [(0 : ℚ)] [[(2 : ℚ)], [0], [0]] (List.cons_ne_nil _ _)

/-- Applying `calculate_clusters` to a non-empty means collection succeeds and returns
one `closest_mean` index per data point, in order, each one in bounds. -/
theorem calculate_clusters_spec (data means : List (List ℚ)) (h : means ≠ []) :
    ∃ cl, calculate_clusters data means = some cl ∧ cl.length = data.length ∧
      (∀ (i : Nat) (d : List ℚ), data[i]? = some d → cl[i]? = closest_mean d means) ∧
      ∀ c ∈ cl, c < means.length := by
  induction data with
  | nil =>
    refine ⟨[], rfl, rfl, ?_, ?_⟩
    · intro i d hd; simp at hd
    · intro c hc; simp at hc
  | cons d rest ih =>
    obtain ⟨cl', h1, h2, h3, h4⟩ := ih
    obtain ⟨c, hc, hlt, -, -⟩ := closest_mean_first d means h
    refine ⟨c :: cl', ?_, ?_, ?_, ?_⟩
    · simp [calculate_clusters, hc, h1]
    · simp [h2]
    · intro i x hx
      cases i with
      | zero =>
        simp only [List.getElem?_cons_zero, Option.some.injEq] at hx
        subst hx
        simpa using hc.symm
      | succ i' =>
        simp only [List.getElem?_cons_succ] at hx ⊢
        exact h3 i' x hx
    · intro x hx
      rcases List.mem_cons.mp hx with hx0 | hxr
      · subst hx0; exact hlt
      · exact h4 x hxr

/-- Claim C5: for every dataset and non-empty means collection of size `k`,
`calculate_clusters` returns an assignment vector of the dataset's length
whose `i`-th entry is `closest_mean` of the `i`-th data point and each of
whose entries lies in `[0, k)`. -/
theorem calculate_clusters_valid (data means : List (List ℚ)) (h : means ≠ []) :
    ∃ cl, calculate_clusters data means = some cl ∧ cl.length = data.length ∧
      (∀ (i : Nat) (d : List ℚ), data[i]? = some d → cl[i]? = closest_mean d means) ∧
      ∀ c ∈ cl, c < means.length :=
  calculate_clusters_spec data means h

/-- Witness for claim C5 at a concrete dataset and means collection. -/
theorem calculate_clusters_valid_witness :
    ∃ cl, calculate_clusters [[(0 : ℚ)], [3]] [[(1 : ℚ)], [4]] = some cl ∧
      cl.length = ([[(0 : ℚ)], [3]] : List (List ℚ)).length ∧
      (∀ (i : Nat) (d : List ℚ), ([[(0 : ℚ)], [3]] : List (List ℚ))[i]? = some d →
        cl[i]? = closest_mean d [[(1 : ℚ)], [4]]) ∧
      ∀ c ∈ cl, c < ([[(1 : ℚ)], [4]] : List (List ℚ)).length :=
  calculate_clusters_valid [[(0 : ℚ)], [3]] [[(1 : ℚ)], [4]] (List.cons_ne_nil _ _)

/-- The minimisation fold of `closest_distance` returns either its starting
value or the squared distance to one of the scanned means, and the result is
a lower bound on the start and on every scanned distance. -/
theorem closest_fold_spec (d : List ℚ) (ms : List (List ℚ)) (a : ℚ) :
    (closest_fold d ms a = a ∨
      ∃ m ∈ ms, closest_fold d ms a = distance_squared d m) ∧
      closest_fold d ms a ≤ a ∧
      ∀ m ∈ ms, closest_fold d ms a ≤ distance_squared d m := by
  induction ms generalizing a with
  | nil => exact ⟨Or.inl rfl, le_refl _, fun m hm => absurd hm (List.not_mem_nil m)⟩
  | cons m0 rest ih =>
    by_cases h : distance_squared d m0 < a
    · have hgo : closest_fold d (m0 :: rest) a =
          closest_fold d rest (distance_squared d m0) := by
        simp [closest_fold, h]
      obtain ⟨hcase, hle, hall⟩ := ih (distance_squared d m0)
      rw [hgo]
      refine ⟨?_, le_trans hle (le_of_lt h), ?_⟩
      · rcases hcase with he | ⟨m, hm, he⟩
        · exact Or.inr ⟨m0, List.mem_cons_self _ _, he⟩
        · exact Or.inr ⟨m, List.mem_cons_of_mem _ hm, he⟩
      · intro m hm
        rcases List.mem_cons.mp hm with h0 | hr
        · subst h0; exact hle
        · exact hall m hr
    · have hgo : closest_fold d (m0 :: rest) a = closest_fold d rest a := by
        simp [closest_fold, h]
      obtain ⟨hcase, hle, hall⟩ := ih a
      rw [hgo]
      refine ⟨?_, hle, ?_⟩
      · rcases hcase with he | ⟨m, hm, he⟩
        · exact Or.inl he
        · exact Or.inr ⟨m, List.mem_cons_of_mem _ hm, he⟩
      · intro m hm
        rcases List.mem_cons.mp hm with h0 | hr
        · subst h0; exact le_trans hle (not_lt.mp h)
        · exact hall m hr

/-- Claim C9 (amended): `closest_distance` reads `means[0]` once per data
point, so a non-empty means collection is required whenever the data is
non-empty; under the non-empty-means precondition every access is in bounds
and the result has one entry per data point, each entry the minimum squared
distance from that point to the means. -/
theorem closest_distance_min (means data : List (List ℚ)) (h : means ≠ []) :
    ∃ r, closest_distance means data = some r ∧ r.length = data.length ∧
      ∀ (i : Nat) (d : List ℚ), data[i]? = some d → ∃ v, r[i]? = some v ∧
        (∃ m ∈ means, v = distance_squared d m) ∧
        ∀ m ∈ means, v ≤ distance_squared d m := by
  match means, h with
  | m0 :: ms, _ =>
    induction data with
    | nil =>
      refine ⟨[], rfl, rfl, ?_⟩
      intro i d hd; simp at hd
    | cons d rest ih =>
      obtain ⟨r', h1, h2, h3⟩ := ih
      refine ⟨closest_fold d (m0 :: ms) (distance_squared d m0) :: r', ?_, ?_, ?_⟩
      · simp [closest_distance, h1]
      · simp [h2]
      · intro i x hx
        obtain ⟨hcase, hle, hall⟩ := closest_fold_spec d (m0 :: ms) (distance_squared d m0)
        cases i with
        | zero =>
          simp only [List.getElem?_cons_zero, Option.some.injEq] at hx
          subst hx
          refine ⟨closest_fold d (m0 :: ms) (distance_squared d m0), by simp, ?_, hall⟩
          rcases hcase with he | hm
          · exact ⟨m0, List.mem_cons_self _ _, he⟩
          · exact hm
        | succ i' =>
          simp only [List.getElem?_cons_succ] at hx ⊢
          exact h3 i' x hx

/-- Counterexample for claim C9 as stated: with an empty dataset the loop
body of `closest_distance` never runs, so even an empty means collection
causes no out-of-bounds read — `means[0]` is not read unconditionally. -/
theorem closest_distance_empty_data_no_read :
    closest_distance ([] : List (List ℚ)) [] ≠ none ∧
      closest_distance ([] : List (List ℚ)) [] = some [] :=
  ⟨by simp [closest_distance], rfl⟩

/-- Witness for claim C9 at a concrete means collection and dataset. -/
theorem closest_distance_min_witness :
    ∃ r, closest_distance [[(1 : ℚ)], [4]] [[(0 : ℚ)], [3]] = some r ∧
      r.length = ([[(0 : ℚ)], [3]] : List (List ℚ)).length ∧
      ∀ (i : Nat) (d : List ℚ), ([[(0 : ℚ)], [3]] : List (List ℚ))[i]? = some d → ∃ v, r[i]? = some v ∧
        (∃ m ∈ [[(1 : ℚ)], [4]], v = distance_squared d m) ∧
        ∀ m ∈ [[(1 : ℚ)], [4]], v ≤ distance_squared d m :=
  closest_distance_min [[(1 : ℚ)], [4]] [[(0 : ℚ)], [3]] (List.cons_ne_nil _ _)

/-- Evaluating `add_into` at an empty mean gives the empty list. -/
theorem add_into_nil (p : List ℚ) : add_into [] p = [] := by
  simp [add_into]

/-- Evaluating `add_into` with an exhausted point leaves the mean unchanged. -/
theorem add_into_nil_right (m : List ℚ) : add_into m [] = m := by
  simp [add_into]

/-- Evaluating `add_into` on two cons cells adds head to head and recurses on the tails. -/
theorem add_into_cons (x : ℚ) (m : List ℚ) (y : ℚ) (p : List ℚ) :
    add_into (x :: m) (y :: p) = (x + y) :: add_into m p := by
  simp [add_into]

/-- Evaluating `add_into` keeps the length of the mean. -/
theorem add_into_length (m p : List ℚ) : (add_into m p).length = m.length := by
  induction m generalizing p with
  | nil => simp [add_into_nil]
  | cons x m ih =>
    cases p with
    | nil => simp [add_into_nil_right]
    | cons y p => simp [add_into_cons, ih]

/-- Coordinate reading of `add_into` inside the common length. -/
theorem add_into_getD (m p : List ℚ) (j : Nat) (hm : j < m.length) (hp : j < p.length) :
    (add_into m p).getD j 0 = m.getD j 0 + p.getD j 0 := by
  induction m generalizing p j with
  | nil => simp at hm
  | cons x m ih =>
    cases p with
    | nil => simp at hp
    | cons y p =>
      rw [add_into_cons]
      cases j with
      | zero => simp
      | succ j' =>
        simpa using ih p j' (by simpa using hm) (by simpa using hp)

/-- The length of a left fold of `add_into` is the starting length. -/
theorem foldl_add_into_length (ds : List (List ℚ)) (m : List ℚ) :
    (List.foldl add_into m ds).length = m.length := by
  induction ds generalizing m with
  | nil => rfl
  | cons d rest ih => rw [List.foldl_cons, ih, add_into_length]

/-- Coordinate reading of a left fold of `add_into` over points of uniform
dimension: each coordinate is the start plus the sum of that coordinate over
the folded points. -/
theorem foldl_add_into_getD (ds : List (List ℚ)) (n : Nat)
    (hds : ∀ d ∈ ds, d.length = n) (m : List ℚ) (hm : m.length = n)
    (j : Nat) (hj : j < n) :
    (List.foldl add_into m ds).getD j 0 =
      m.getD j 0 + (ds.map (fun d => d.getD j 0)).sum := by
  induction ds generalizing m with
  | nil => simp
  | cons d rest ih =>
    have hd : d.length = n := hds d (List.mem_cons_self _ _)
    have hlen : (add_into m d).length = n := by rw [add_into_length, hm]
    rw [List.foldl_cons,
      ih (fun d' hd' => hds d' (List.mem_cons_of_mem _ hd')) _ hlen,
      add_into_getD m d j (by omega) (by omega), List.map_cons, List.sum_cons]
    ring

/-- The count component of a left fold of `bump`: the start plus the number
of folded points. -/
theorem foldl_bump_snd (ds : List (List ℚ)) (m : List ℚ) (c : ℚ) :
    (List.foldl bump (m, c) ds).2 = c + ds.length := by
  induction ds generalizing m c with
  | nil => simp
  | cons d rest ih =>
    rw [List.foldl_cons]
    show (List.foldl bump (add_into m d, c + 1) rest).2 = _
    rw [ih]
    simp only [List.length_cons]
    push_cast
    ring

/-- The sum component of a left fold of `bump` is a left fold of
`add_into`. -/
theorem foldl_bump_fst (ds : List (List ℚ)) (m : List ℚ) (c : ℚ) :
    (List.foldl bump (m, c) ds).1 = List.foldl add_into m ds := by
  induction ds generalizing m c with
  | nil => rfl
  | cons d rest ih =>
    rw [List.foldl_cons, List.foldl_cons]
    exact ih (add_into m d) (c + 1)

/-- The accumulation loop of `calculate_means` succeeds when every consulted
cluster index is in range, keeps the state length, and leaves each slot `c`
equal to the fold of `bump` over exactly the points assigned to `c`, in
order. -/
theorem accum_spec (cds : List (Nat × List ℚ)) (st : List (List ℚ × ℚ))
    (h : ∀ cd ∈ cds, cd.1 < st.length) :
    ∃ st', accum cds st = some st' ∧ st'.length = st.length ∧
      ∀ c : Nat, st'[c]? = (st[c]?).map
        (fun mc => List.foldl bump mc
          ((cds.filter (fun cd => cd.1 = c)).map Prod.snd)) := by
  induction cds generalizing st with
  | nil =>
    refine ⟨st, rfl, rfl, ?_⟩
    intro c
    cases hc : st[c]? <;> simp
  | cons cd rest ih =>
    have hlt : cd.1 < st.length := h cd (List.mem_cons_self _ _)
    have hrest : ∀ x ∈ rest,
        x.1 < (st.set cd.1 (bump (st.getD cd.1 ([], 0)) cd.2)).length := by
      intro x hx
      rw [List.length_set]
      exact h x (List.mem_cons_of_mem _ hx)
    obtain ⟨st', h1, h2, h3⟩ := ih _ hrest
    refine ⟨st', ?_, ?_, ?_⟩
    · show accum (cd :: rest) st = some st'
      rw [show accum (cd :: rest) st =
        accum rest (st.set cd.1 (bump (st.getD cd.1 ([], 0)) cd.2)) from by
          simp [accum, hlt]]
      exact h1
    · rw [h2, List.length_set]
    · intro c
      have hst : st[cd.1]? = some (st.getD cd.1 ([], 0)) := by
        rw [List.getD_eq_getElem?_getD, List.getElem?_eq_getElem hlt]
        rfl
      by_cases hc : cd.1 = c
      · subst hc
        rw [h3 cd.1, List.getElem?_set_eq_of_lt _ hlt, hst]
        simp [List.filter_cons]
      · rw [h3 c, List.getElem?_set_ne hc]
        simp [List.filter_cons, hc]

/-- The finalisation loop of `calculate_means` succeeds when every
zero-count slot has a previous mean to fall back to, keeps the length, and
maps each slot to the previous mean (count zero) or to the coordinate-wise
quotient by the count. -/
theorem finalize_spec (old : List (List ℚ)) (st : List (List ℚ × ℚ)) (i0 : Nat)
    (h : ∀ (j : Nat) (mc : List ℚ × ℚ), st[j]? = some mc → mc.2 = 0 →
      i0 + j < old.length) :
    ∃ r, finalize old i0 st = some r ∧ r.length = st.length ∧
      ∀ (j : Nat) (mc : List ℚ × ℚ), st[j]? = some mc →
        r[j]? = (if mc.2 = 0 then old[i0 + j]?
          else some (mc.1.map (fun x => x / mc.2))) := by
  induction st generalizing i0 with
  | nil => exact ⟨[], rfl, rfl, fun j mc hj => by simp at hj⟩
  | cons mc0 rest ih
  =>
    have hnext : ∀ (j : Nat) (mc : List ℚ × ℚ), rest[j]? = some mc →
        mc.2 = 0 → (i0 + 1) + j < old.length := by
      intro j mc hj hz
      have := h (j + 1) mc (by simpa using hj) hz
      omega
    obtain ⟨r', h1, h2, h3⟩ := ih (i0 + 1) hnext
    by_cases h0 : mc0.2 = 0
    · have hi0 : i0 < old.length := by
        have := h 0 mc0 (by simp) h0
        omega
      have hom : old[i0]? = some old[i0] := List.getElem?_eq_getElem hi0
      refine ⟨old[i0] :: r', ?_, by simp [h2], ?_⟩
      · show finalize old i0 (mc0 :: rest) = _
        rw [show finalize old i0 (mc0 :: rest) =
          (finalize old (i0 + 1) rest).map (fun r => old[i0] :: r) from by
            simp [finalize, h0, hom], h1]
        rfl
      · intro j mc hj
        cases j with
        | zero =>
          simp only [List.getElem?_cons_zero, Option.some.injEq] at hj
          subst hj
          simp [h0, hom]
        | succ j' =>
          simp only [List.getElem?_cons_succ] at hj ⊢
          rw [h3 j' mc hj, show i0 + 1 + j' = i0 + (j' + 1) from by omega]
    · refine ⟨mc0.1.map (fun x => x / mc0.2) :: r', ?_, by simp [h2], ?_⟩
      · show finalize old i0 (mc0 :: rest) = _
        rw [show finalize old i0 (mc0 :: rest) =
          (finalize old (i0 + 1) rest).map
            (fun r => mc0.1.map (fun x => x / mc0.2) :: r) from by
            simp [finalize, h0], h1]
        rfl
      · intro j mc hj
        cases j with
        | zero =>
          simp only [List.getElem?_cons_zero, Option.some.injEq] at hj
          subst hj
          simp [h0]
        | succ j' =>
          simp only [List.getElem?_cons_succ] at hj ⊢
          rw [h3 j' mc hj, show i0 + 1 + j' = i0 + (j' + 1) from by omega]

/-- A coordinate read of a zero-initialised point is zero. -/
theorem getD_replicate_zero (n j : Nat) :
    (List.replicate n (0 : ℚ)).getD j 0 = 0 := by
  induction n generalizing j with
  | zero => rfl
  | succ n ih =>
    cases j with
    | zero => rfl
    | succ j' => simp [List.replicate_succ, ih j']

/-- Full characterisation of `calculate_means` under the in-range and
fallback preconditions: it succeeds, returns `k` means, and the `c`-th mean
is the previous mean when no consulted point is assigned to `c`, otherwise
the accumulated coordinate sums of the points assigned to `c` divided by
their number. -/
theorem calculate_means_spec (data : List (List ℚ)) (clusters : List Nat)
    (old_means : List (List ℚ)) (k n : Nat)
    (hk : ∀ cd ∈ clusters.zip data, cd.1 < k)
    (hold : k ≤ old_means.length) :
    ∃ ms, calculate_means data clusters old_means k n = some ms ∧ ms.length = k ∧
      ∀ c : Nat, c < k →
        ms[c]? = (if ((clusters.zip data).filter (fun cd => cd.1 = c)).length = 0
          then old_means[c]?
          else some ((List.foldl add_into (List.replicate n 0)
              (((clusters.zip data).filter (fun cd => cd.1 = c)).map Prod.snd)).map
            (fun x => x /
              (((clusters.zip data).filter (fun cd => cd.1 = c)).length : ℚ)))) := by
  have hst0 : ∀ cd ∈ clusters.zip data, cd.1 <
      (List.replicate k ((List.replicate n (0 : ℚ)), (0 : ℚ))).length := by
    intro cd hcd
    rw [List.length_replicate]
    exact hk cd hcd
  obtain ⟨st', h1, h2, h3⟩ := accum_spec (clusters.zip data) _ hst0
  have hlen : st'.length = k := by rw [h2, List.length_replicate]
  have hslot : ∀ c : Nat, c < k → st'[c]? = some
      (List.foldl bump (List.replicate n (0 : ℚ), (0 : ℚ))
        (((clusters.zip data).filter (fun cd => cd.1 = c)).map Prod.snd)) := by
    intro c hc
    have hcl : c < (List.replicate k ((List.replicate n (0 : ℚ)), (0 : ℚ))).length := by
      rw [List.length_replicate]
      exact hc
    rw [h3 c, List.getElem?_eq_getElem hcl, List.getElem_replicate]
    rfl
  have hfin : ∀ (j : Nat) (mc : List ℚ × ℚ), st'[j]? = some mc → mc.2 = 0 →
      0 + j < old_means.length := by
    intro j mc hj hz
    have hjlen : j < st'.length := by
      by_contra hge
      rw [List.getElem?_eq_none (by omega)] at hj
      exact Option.noConfusion hj
    omega
  obtain ⟨r, hr1, hr2, hr3⟩ := finalize_spec old_means st' 0 hfin
  have hcm : calculate_means data clusters old_means k n = finalize old_means 0 st' := by
    unfold calculate_means
    rw [h1]
    rfl
  refine ⟨r, by rw [hcm]; exact hr1, by rw [hr2, hlen], ?_⟩
  intro c hc
  rw [hr3 c _ (hslot c hc)]
  simp only [foldl_bump_snd, foldl_bump_fst, List.length_map, zero_add,
    Nat.zero_add, Nat.cast_eq_zero]

/-- Claim C10: under the precondition that every consulted assignment entry
(the first `min(|clusters|, |data|)` of them) is `< k` and that `old_means`
has at least `k` entries, every container access in `calculate_means` is in
bounds, i.e. it returns a result rather than failing. -/
theorem calculate_means_in_bounds (data : List (List ℚ)) (clusters : List Nat)
    (old_means : List (List ℚ)) (k n : Nat)
    (hk : ∀ cd ∈ clusters.zip data, cd.1 < k)
    (hold : k ≤ old_means.length) :
    (calculate_means data clusters old_means k n).isSome = true := by
  obtain ⟨ms, h1, -, -⟩ := calculate_means_spec data clusters old_means k n hk hold
  rw [h1]
  rfl

/-- Witness for claim C10 at a concrete input. -/
theorem calculate_means_in_bounds_witness :
    (calculate_means [[(1 : ℚ)], [3]] [0, 0] [[(5 : ℚ)]] 1 1).isSome = true :=
  calculate_means_in_bounds [[(1 : ℚ)], [3]] [0, 0] [[(5 : ℚ)]] 1 1
    (by decide) (by decide)

/-- Claim C3: a cluster index `c < k` to which none of the consulted points
is assigned receives exactly the previous mean `old_means[c]`, unchanged —
no cluster is dropped or reseeded. -/
theorem calculate_means_empty_cluster (data : List (List ℚ)) (clusters : List Nat)
    (old_means : List (List ℚ)) (k n c : Nat)
    (hk : ∀ cd ∈ clusters.zip data, cd.1 < k)
    (hold : k ≤ old_means.length)
    (hc : c < k)
    (hempty : ∀ cd ∈ clusters.zip data, cd.1 ≠ c) :
    ∃ ms, calculate_means data clusters old_means k n = some ms ∧
      ms[c]? = old_means[c]? := by
  obtain ⟨ms, h1, h2, h3⟩ := calculate_means_spec data clusters old_means k n hk hold
  have hfil : (clusters.zip data).filter (fun cd => cd.1 = c) = [] := by
    rw [List.filter_eq_nil_iff]
    intro cd hcd
    simpa using hempty cd hcd
  refine ⟨ms, h1, ?_⟩
  rw [h3 c hc]
  simp [hfil]

/-- Witness for claim C3: with one point assigned to cluster 0 and `k = 2`,
the empty cluster 1 keeps its previous mean. -/
theorem calculate_means_empty_cluster_witness :
    ∃ ms, calculate_means [[(1 : ℚ)]] [0] [[(5 : ℚ)], [7]] 2 1 = some ms ∧
      ms[1]? = ([[(5 : ℚ)], [7]] : List (List ℚ))[1]? :=
  calculate_means_empty_cluster [[(1 : ℚ)]] [0] [[(5 : ℚ)], [7]] 2 1 1
    (by decide) (by decide) (by decide) (by decide)

/-- Claim C1: for every cluster index `c < k` to which at least one of the
consulted points is assigned, `calculate_means` returns as the `c`-th mean
the component-wise average — each coordinate is the sum of that coordinate
over exactly the consulted points assigned to `c`, divided by their
number. -/
theorem calculate_means_centroid (data : List (List ℚ)) (clusters : List Nat)
    (old_means : List (List ℚ)) (k n c : Nat)
    (hk : ∀ cd ∈ clusters.zip data, cd.1 < k)
    (hold : k ≤ old_means.length)
    (hdim : ∀ d ∈ data, d.length = n)
    (hc : c < k)
    (hne : (clusters.zip data).filter (fun cd => cd.1 = c) ≠ []) :
    ∃ ms mc, calculate_means data clusters old_means k n = some ms ∧
      ms[c]? = some mc ∧ mc.length = n ∧
      ∀ j : Nat, j < n →
        mc[j]? = some
          ((((clusters.zip data).filter (fun cd => cd.1 = c)).map
              (fun cd => cd.2.getD j 0)).sum /
            (((clusters.zip data).filter (fun cd => cd.1 = c)).length : ℚ)) := by
  obtain ⟨ms, h1, h2, h3⟩ := calculate_means_spec data clusters old_means k n hk hold
  set fc := (clusters.zip data).filter (fun cd => cd.1 = c) with hfc
  have hlne : fc.length ≠ 0 := by
    intro h0
    exact hne (List.length_eq_zero.mp h0)
  have hms : ms[c]? = some ((List.foldl add_into (List.replicate n 0)
      (fc.map Prod.snd)).map (fun x => x / (fc.length : ℚ))) := by
    rw [h3 c hc, if_neg hlne]
  set S := List.foldl add_into (List.replicate n (0 : ℚ)) (fc.map Prod.snd) with hS
  have hdims : ∀ d ∈ fc.map Prod.snd, d.length = n := by
    intro d hd
    obtain ⟨cd, hcd, rfl⟩ := List.mem_map.mp hd
    have hzip : cd ∈ clusters.zip data := List.mem_of_mem_filter hcd
    exact hdim cd.2 (List.of_mem_zip hzip).2
  have hSlen : S.length = n := by
    rw [hS, foldl_add_into_length, List.length_replicate]
  refine ⟨ms, S.map (fun x => x / (fc.length : ℚ)), h1, hms, by simp [hSlen], ?_⟩
  intro j hj
  have hj' : j < S.length := by omega
  rw [List.getElem?_map, List.getElem?_eq_getElem hj']
  have hget : S[j] = S.getD j 0 := by
    rw [List.getD_eq_getElem?_getD, List.getElem?_eq_getElem hj']
    rfl
  have hsum : S.getD j 0 = (List.replicate n (0 : ℚ)).getD j 0 +
      ((fc.map Prod.snd).map (fun d => d.getD j 0)).sum := by
    rw [hS]
    exact foldl_add_into_getD (fc.map Prod.snd) n hdims _
      (by rw [List.length_replicate]) j hj
  rw [Option.map_some', hget, hsum, getD_replicate_zero, zero_add]
  simp [List.map_map, Function.comp_def, List.getD_eq_getElem?_getD]

/-- Witness for claim C1: two points `[1]`, `[3]` both assigned to cluster 0
average to `[2]`. -/
theorem calculate_means_centroid_witness :
    ∃ ms mc, calculate_means [[(1 : ℚ)], [3]] [0, 0] [[(5 : ℚ)]] 1 1 = some ms ∧
      ms[0]? = some mc ∧ mc.length = 1 ∧
      ∀ j : Nat, j < 1 →
        mc[j]? = some
          ((((([0, 0] : List Nat).zip [[(1 : ℚ)], [3]]).filter
              (fun cd => cd.1 = 0)).map (fun cd => cd.2.getD j 0)).sum /
            (((([0, 0] : List Nat).zip [[(1 : ℚ)], [3]]).filter
              (fun cd => cd.1 = 0)).length : ℚ)) :=
  calculate_means_centroid [[(1 : ℚ)], [3]] [0, 0] [[(5 : ℚ)]] 1 1 0
    (by decide) (by decide) (by decide) (by decide) (by decide)

/-- Termination of the modelled Lloyd's loop: with the maximum-iteration
bound configured, a cluster count of at least one and a means collection of
exactly that length, the loop completes within any remaining-iteration
budget `fuel` that covers the bound, and the returned pair is the
assign/update output of the iteration during which it stopped. -/
theorem lloyd_loop_some (data : List (List ℚ)) (p : clustering_parameters) (n : Nat)
    (hset : p._has_max_iter = true) (hk : 1 ≤ p._k) :
    ∀ (fuel iter : Nat) (means : List (List ℚ)), means.length = p._k →
      p._max_iter ≤ fuel + iter → 1 ≤ fuel →
      ∃ ms cl pm, lloyd_loop data p n fuel iter means = some (ms, cl) ∧
        calculate_clusters data pm = some cl ∧
        calculate_means data cl pm p._k n = some ms := by
  intro fuel
  induction fuel with
  | zero => intro iter means _ _ h1; omega
  | succ fuel ih =>
    intro iter means hlen hbound _
    have hne : means ≠ [] := by
      intro h0
      rw [h0] at hlen
      simp only [List.length_nil] at hlen
      omega
    obtain ⟨cl, hcl, hcllen, hclent, hclmem⟩ := calculate_clusters_spec data means hne
    have hkcl : ∀ cd ∈ cl.zip data, cd.1 < p._k := by
      intro cd hcd
      have hmem : cd.1 ∈ cl := (List.of_mem_zip hcd).1
      have hb := hclmem cd.1 hmem
      omega
    obtain ⟨ms, hms, hmslen, -⟩ :=
      calculate_means_spec data cl means p._k n hkcl (le_of_eq hlen.symm)
    have hstep : lloyd_loop data p n (fuel + 1) iter means =
        (if p._has_min_delta && lloyd_converged p._min_delta means ms then
          some (ms, cl)
        else if p._has_max_iter && decide (p._max_iter ≤ iter + 1) then
          some (ms, cl)
        else
          lloyd_loop data p n fuel (iter + 1) ms) := by
      simp only [lloyd_loop, hcl, Option.some_bind, hms]
    cases hc1 : (p._has_min_delta && lloyd_converged p._min_delta means ms) with
    | true =>
      refine ⟨ms, cl, means, ?_, hcl, hms⟩
      simp [hstep, hc1]
    | false =>
      cases hc2 : (p._has_max_iter && decide (p._max_iter ≤ iter + 1)) with
      | true =>
        refine ⟨ms, cl, means, ?_, hcl, hms⟩
        simp [hstep, hc1, hc2]
      | false =>
        have hgt : ¬(p._max_iter ≤ iter + 1) := by
          intro hle
          rw [hset] at hc2
          simp [hle] at hc2
        obtain ⟨ms', cl', pm, hloop, hpm1, hpm2⟩ :=
          ih (iter + 1) ms hmslen (by omega) (by omega)
        refine ⟨ms', cl', pm, ?_, hpm1, hpm2⟩
        rw [hstep]
        simp only [hc1, hc2, Bool.false_eq_true, if_false]
        exact hloop

/-- Claim C6 (amended): whenever a maximum iteration count of at least 1 is
configured, the modelled Lloyd's loop terminates within `max_iteration`
iterations regardless of the data, and the result is a normal `some` pair
consisting of the means and assignments computed during the last completed
iteration (an assign/update pair from one iteration). -/
theorem lloyd_max_iteration_terminates (data : List (List ℚ))
    (p : clustering_parameters) (n : Nat) (means0 : List (List ℚ))
    (hset : p._has_max_iter = true) (hpos : 1 ≤ p._max_iter)
    (hk : 1 ≤ p._k) (hlen : means0.length = p._k) :
    ∃ ms cl pm, lloyd_loop data p n p._max_iter 0 means0 = some (ms, cl) ∧
      calculate_clusters data pm = some cl ∧
      calculate_means data cl pm p._k n = some ms :=
  lloyd_loop_some data p n hset hk p._max_iter 0 means0 hlen (by omega) hpos

/-- Witness for claim C6 at a concrete configuration (`k = 1`,
`max_iteration = 2`) and dataset. -/
theorem lloyd_max_iteration_terminates_witness :
    ∃ ms cl pm,
      lloyd_loop [[(0 : ℚ)]] ((clustering_parameters.init 1).set_max_iteration 2) 1
          ((clustering_parameters.init 1).set_max_iteration 2)._max_iter 0
          [[(0 : ℚ)]] = some (ms, cl) ∧
        calculate_clusters [[(0 : ℚ)]] pm = some cl ∧
        calculate_means [[(0 : ℚ)]] cl pm
          ((clustering_parameters.init 1).set_max_iteration 2)._k 1 = some ms :=
  lloyd_max_iteration_terminates [[(0 : ℚ)]]
    ((clustering_parameters.init 1).set_max_iteration 2) 1 [[(0 : ℚ)]]
    rfl (by decide) (by decide) (by decide)

/-- Counterexample for claim C6 as stated: with a configured maximum
iteration count of 0 the loop does not terminate within 0 iterations — the
do-while body always runs once (the convergence test comes after assign and
update), so one full iteration is needed before the bound check stops the
run. -/
theorem lloyd_zero_max_iteration_one_iteration :
    lloyd_loop [] ((clustering_parameters.init 1).set_max_iteration 0) 1 0 0
        [[(0 : ℚ)]] = none ∧
      lloyd_loop [] ((clustering_parameters.init 1).set_max_iteration 0) 1 1 0
        [[(0 : ℚ)]] = some ([[(0 : ℚ)]], []) :=
  ⟨by decide, by decide⟩
